import Mathlib

/-!
Singly-linked list reversal (`linked_list.c`)

A shallow embedding of `reverse_list`, `create_node`, `print_list` and
`free_list` over an explicit heap, and the properties of the specification that
concern them.

* A pointer `Node *` is an `Option Nat`: `none` is `NULL`, `some a` is the
  address `a`.
* The heap maps an address to the node stored there, or to `none` when no node
  lives at that address.
* A `while` loop is a recursive function with a fuel argument that bounds the
  number of executions of its body; running out of fuel is the outcome
  `Result.timeout`, dereferencing a pointer at which no node lives is
  `Result.fault`.
-/

namespace LinkedList

/-- The C struct `Node` of `linked_list.h`: `int data; struct Node *next;`. -/
structure Node where
  data : Int
  next : Option Nat
  deriving DecidableEq

/-- A value of C type `Node *`; `none` is `NULL`. -/
abbrev Ptr := Option Nat

/-- The heap: the node living at each address, if any. -/
abbrev Heap := Nat → Option Node

/-- Outcome of running a piece of the program. -/
inductive Result (α : Type) where
  | ok : α → Result α
  | fault : Result α
  | timeout : Result α

/-- The heap after a write of the whole node at address `a`. -/
def store (h : Heap) (a : Nat) (n : Node) : Heap :=
  fun b => if b = a then some n else h b

/-- What `reverse_list` leaves behind: the final heap, the returned pointer and
the number of times the body of its `while` loop was executed. -/
structure Reversed where
  heap : Heap
  ret : Ptr
  iters : Nat

/-- The `while (current != NULL)` loop of `reverse_list` (lines 27-32), started
with the given `prev` and `current`; `iters` counts the executions of the body
so far. The local `next` only carries `current->next` across the write. -/
def reverse_loop : Nat → Heap → Ptr → Ptr → Nat → Result Reversed
  | _, h, prev, none, iters => .ok ⟨h, prev, iters⟩
  | 0, _, _, some _, _ => .timeout
  | fuel + 1, h, prev, some c, iters =>
    match h c with
    | none => .fault
    | some n =>
      -- next = current->next; current->next = prev; prev = current; current = next;
      reverse_loop fuel (store h c ⟨n.data, prev⟩) (some c) n.next (iters + 1)

/-- The function `reverse_list` (lines 16-36). -/
def reverse_list (fuel : Nat) (h : Heap) (head : Ptr) : Result Reversed :=
  match head with
  | none => .ok ⟨h, head, 0⟩
  | some a =>
    match h a with
    | none => .fault
    | some n =>
      if n.next = none then .ok ⟨h, head, 0⟩
      else reverse_loop fuel h none head 0

/-- Outcome of `create_node`: it returns to its caller, or the process exits. -/
inductive Created where
  | returned (heap : Heap) (node : Ptr)
  | exited (status : Nat) (stderr : String)

/-- The function `create_node` (lines 41-50). The argument `malloc` is what the
call `malloc(sizeof(Node))` returned: `none` for `NULL`, `some a` for storage at
address `a`. -/
def create_node (malloc : Ptr) (h : Heap) (data : Int) : Created :=
  match malloc with
  | none => .exited 1 "内存分配失败\n"
  | some a => .returned (store h a ⟨data, none⟩) (some a)

/-- The loop of `print_list` (lines 57-63); `out` is the text written so far. -/
def print_loop : Nat → Heap → Ptr → String → Result (Heap × String)
  | _, h, none, out => .ok (h, out)
  | 0, _, some _, _ => .timeout
  | fuel + 1, h, some c, out =>
    match h c with
    | none => .fault
    | some n =>
      let out1 := out ++ toString n.data
      let out2 := if n.next ≠ none then out1 ++ " -> " else out1
      print_loop fuel h n.next out2

/-- The function `print_list` (lines 55-65): the heap it leaves and the text it
writes to standard output. -/
def print_list (fuel : Nat) (h : Heap) (head : Ptr) : Result (Heap × String) :=
  match print_loop fuel h head "" with
  | .ok (h1, out) => .ok (h1, out ++ "\n")
  | .fault => .fault
  | .timeout => .timeout

/-! ## Well-formed lists -/

/-- `IsList h p l`: following `next` from `p` in `h` visits exactly the nodes
`l`, given as (address, value) pairs in link order, and then reaches `NULL`. -/
def IsList (h : Heap) : Ptr → List (Nat × Int) → Prop
  | p, [] => p = none
  | p, x :: l => p = some x.1 ∧ ∃ nx, h x.1 = some ⟨x.2, nx⟩ ∧ IsList h nx l

/-- `HasValues h p vs`: the chain from `p` in `h` is finite, ends in `NULL`, and
its values in link order are `vs`. -/
def HasValues (h : Heap) : Ptr → List Int → Prop
  | p, [] => p = none
  | p, v :: vs => ∃ a nx, p = some a ∧ h a = some ⟨v, nx⟩ ∧ HasValues h nx vs

/-- The heap holding, at addresses `base, base+1, ...`, a chain with the given
values. -/
def build (base : Nat) : List Int → Heap
  | [] => fun _ => none
  | [v] => store (fun _ => none) base ⟨v, none⟩
  | v :: w :: vs => store (build (base + 1) (w :: vs)) base ⟨v, some (base + 1)⟩

/-- The text the loop of `print_list` writes for a list with the given values. -/
def joined : List Int → String
  | [] => ""
  | [v] => toString v
  | v :: w :: vs => toString v ++ " -> " ++ joined (w :: vs)

/-- Decision procedure for `IsList`. -/
def decIsList (h : Heap) : (p : Ptr) → (l : List (Nat × Int)) → Decidable (IsList h p l)
  | p, [] => inferInstanceAs (Decidable (p = none))
  | p, x :: l =>
    if hp : p = some x.1 then
      match hn : h x.1 with
      | none => isFalse (fun hl => by
          obtain ⟨_, nx, hx, _⟩ := hl
          rw [hn] at hx
          cases hx)
      | some n =>
        if hd : n.data = x.2 then
          match decIsList h n.next l with
          | isTrue ht => isTrue ⟨hp, n.next, by rw [hn, ← hd], ht⟩
          | isFalse hf => isFalse (fun hl => by
              obtain ⟨_, nx, hx, ht⟩ := hl
              rw [hn] at hx
              cases hx
              exact hf ht)
        else isFalse (fun hl => by
          obtain ⟨_, nx, hx, _⟩ := hl
          rw [hn] at hx
          cases hx
          exact hd rfl)
    else isFalse (fun hl => hp hl.1)

instance (h : Heap) (p : Ptr) (l : List (Nat × Int)) : Decidable (IsList h p l) :=
  decIsList h p l

/-- Decision procedure for `HasValues`. -/
def decHasValues (h : Heap) : (p : Ptr) → (vs : List Int) → Decidable (HasValues h p vs)
  | p, [] => inferInstanceAs (Decidable (p = none))
  | none, _ :: _ => isFalse (fun hv => by
      obtain ⟨a, nx, hp, _⟩ := hv
      cases hp)
  | some a, v :: vs =>
    match hn : h a with
    | none => isFalse (fun hv => by
        obtain ⟨b, nx, hp, hx, _⟩ := hv
        cases hp
        rw [hn] at hx
        cases hx)
    | some n =>
      if hd : n.data = v then
        match decHasValues h n.next vs with
        | isTrue ht => isTrue ⟨a, n.next, rfl, by rw [hn, ← hd], ht⟩
        | isFalse hf => isFalse (fun hv => by
            obtain ⟨b, nx, hp, hx, ht⟩ := hv
            cases hp
            rw [hn] at hx
            cases hx
            exact hf ht)
      else isFalse (fun hv => by
        obtain ⟨b, nx, hp, hx, _⟩ := hv
        cases hp
        rw [hn] at hx
        cases hx
        exact hd rfl)

instance (h : Heap) (p : Ptr) (vs : List Int) : Decidable (HasValues h p vs) :=
  decHasValues h p vs

/-- The heap in which the links of the nodes `l` have been turned round: the
first node of `l` points to `prev`, every other node to its predecessor. -/
def relink (h : Heap) : Ptr → List (Nat × Int) → Heap
  | _, [] => h
  | prev, x :: l => relink (store h x.1 ⟨x.2, prev⟩) (some x.1) l

/-- The address of the last node of `l`, or `prev` when `l` is empty. -/
def endPtr : Ptr → List (Nat × Int) → Ptr
  | prev, [] => prev
  | _, x :: l => endPtr (some x.1) l

/-! ## Deallocation -/

/-- An access `free_list` makes to the storage of the node at an address. -/
inductive Event where
  | readNext (a : Nat)
  | free (a : Nat)
  deriving DecidableEq

/-- What `free_list` leaves behind: the live flag of every address and the
accesses it made, in the order it made them. -/
structure Freed where
  live : Nat → Bool
  trace : List Event

/-- A read of the node at address `a`: the node stored there, when the storage
at `a` is live. -/
def load (h : Heap) (live : Nat → Bool) (a : Nat) : Option Node :=
  if live a then h a else none

/-- The live flags after the storage at `a` has been released. -/
def release (live : Nat → Bool) (a : Nat) : Nat → Bool :=
  fun b => if b = a then false else live b

/-- The loop of `free_list` (lines 74-78). Reading `current->next` of a node
that is not live, and calling `free` on storage that is not live, are faults. -/
def free_loop : Nat → Heap → (Nat → Bool) → List Event → Ptr → Result Freed
  | _, _, live, tr, none => .ok ⟨live, tr⟩
  | 0, _, _, _, some _ => .timeout
  | fuel + 1, h, live, tr, some c =>
    -- next = current->next;
    match load h live c with
    | none => .fault
    | some n =>
      -- free(current); current = next;
      if live c then
        free_loop fuel h (release live c) (tr ++ [.readNext c, .free c]) n.next
      else .fault

/-- The function `free_list` (lines 70-79). -/
def free_list (fuel : Nat) (h : Heap) (live : Nat → Bool) (head : Ptr) : Result Freed :=
  free_loop fuel h live [] head

/-- The addresses released in a trace, in the order of their release. -/
def released : List Event → List Nat
  | [] => []
  | .readNext _ :: tr => released tr
  | .free a :: tr => a :: released tr

/-- The accesses of a traversal that, node by node, reads `next` and then
releases the node. -/
def accesses : List (Nat × Int) → List Event
  | [] => []
  | x :: l => .readNext x.1 :: .free x.1 :: accesses l

/-- The live flags after the nodes of `l` have been released one after the
other. -/
def releaseAll (live : Nat → Bool) : List (Nat × Int) → Nat → Bool
  | [] => live
  | x :: l => releaseAll (release live x.1) l

/-! ## Counting the loop of `reverse_list` -/

/-- The loop of `reverse_list` (lines 27-32) again, returning the number of
times its condition `current != NULL` was evaluated; `tests` counts the
evaluations so far. -/
def reverse_loop_tests : Nat → Heap → Ptr → Ptr → Nat → Result Nat
  | _, _, _, none, tests => .ok (tests + 1)
  | 0, _, _, some _, _ => .timeout
  | fuel + 1, h, prev, some c, tests =>
    match h c with
    | none => .fault
    | some n =>
      reverse_loop_tests fuel (store h c ⟨n.data, prev⟩) (some c) n.next (tests + 1)

/-- The function `reverse_list` (lines 16-36), returning the number of times
the condition of its loop was evaluated. -/
def reverse_list_tests (fuel : Nat) (h : Heap) (head : Ptr) : Result Nat :=
  match head with
  | none => .ok 0
  | some a =>
    match h a with
    | none => .fault
    | some n =>
      if n.next = none then .ok 0
      else reverse_loop_tests fuel h none head 0

/-! ## The loop of `reverse_list`, one iteration at a time -/

/-- One execution of the body of the loop of `reverse_list` (lines 28-31) with
`current` at address `c`: the heap, `prev` and `current` it leaves, or `none`
when no node lives at `c`. -/
def reverse_body (h : Heap) (prev : Ptr) (c : Nat) : Option (Heap × Ptr × Ptr) :=
  match h c with
  | none => none
  | some n => some (store h c ⟨n.data, prev⟩, some c, n.next)

/-- The heap, `prev` and `current` after `k` executions of the body of the
loop, that is, at the start of the next iteration; `none` when the loop ends
or faults before. -/
def reverse_run : Nat → Heap → Ptr → Ptr → Option (Heap × Ptr × Ptr)
  | 0, h, prev, cur => some (h, prev, cur)
  | _ + 1, _, _, none => none
  | k + 1, h, prev, some c =>
    match reverse_body h prev c with
    | none => none
    | some s => reverse_run k s.1 s.2.1 s.2.2

/-- The invariant of the loop of `reverse_list` on the list `l` of the initial
heap `h0`, after `k` nodes have been consumed: the chain from `prev` is the
first `k` nodes of `l` in reverse order, and `current` is the head of the
remaining nodes, none of which has been modified. -/
def LoopInv (h0 : Heap) (l : List (Nat × Int)) (k : Nat) (h : Heap) (prev cur : Ptr) : Prop :=
  k ≤ l.length ∧ IsList h prev (l.take k).reverse ∧ IsList h cur (l.drop k) ∧
    ∀ a, a ∈ (l.drop k).map Prod.fst → h a = h0 a

/-! ## The algorithm of the specification -/

/-- Step 2 of the algorithm of the specification (section 4.1): repeat while
`current` is not none: save `current.next` into a temporary `next`; set
`current.next = prev`; advance `prev = current`; advance `current = next`. -/
def spec_reverse_loop : Nat → Heap → Ptr → Ptr → Result (Heap × Ptr)
  | _, h, prev, none => .ok (h, prev)
  | 0, _, _, some _ => .timeout
  | fuel + 1, h, prev, some c =>
    match h c with
    | none => .fault
    | some n => spec_reverse_loop fuel (store h c ⟨n.data, prev⟩) (some c) n.next

/-- The algorithm of the specification (section 4.1, steps 1 to 3), which has
no guard: `prev` is initially none and `current` initially `head`; when the
loop ends, `prev` is returned. -/
def spec_reverse (fuel : Nat) (h : Heap) (head : Ptr) : Result (Heap × Ptr) :=
  spec_reverse_loop fuel h none head

/-! ## Chains that run into a cycle -/

/-- `IsSeg h p l q`: following `next` from `p` in `h` visits exactly the nodes
`l`, given as (address, value) pairs in link order, and then arrives at `q`. -/
def IsSeg (h : Heap) : Ptr → List (Nat × Int) → Ptr → Prop
  | p, [], q => p = q
  | p, x :: l, q => p = some x.1 ∧ ∃ nx, h x.1 = some ⟨x.2, nx⟩ ∧ IsSeg h nx l q

/-- Decision procedure for `IsSeg`. -/
def decIsSeg (h : Heap) :
    (p : Ptr) → (l : List (Nat × Int)) → (q : Ptr) → Decidable (IsSeg h p l q)
  | p, [], q => inferInstanceAs (Decidable (p = q))
  | p, x :: l, q =>
    if hp : p = some x.1 then
      match hn : h x.1 with
      | none => isFalse (fun hl => by
          obtain ⟨_, nx, hx, _⟩ := hl
          rw [hn] at hx
          cases hx)
      | some n =>
        if hd : n.data = x.2 then
          match decIsSeg h n.next l q with
          | isTrue ht => isTrue ⟨hp, n.next, by rw [hn, ← hd], ht⟩
          | isFalse hf => isFalse (fun hl => by
              obtain ⟨_, nx, hx, ht⟩ := hl
              rw [hn] at hx
              cases hx
              exact hf ht)
        else isFalse (fun hl => by
          obtain ⟨_, nx, hx, _⟩ := hl
          rw [hn] at hx
          cases hx
          exact hd rfl)
    else isFalse (fun hl => hp hl.1)

instance (h : Heap) (p : Ptr) (l : List (Nat × Int)) (q : Ptr) : Decidable (IsSeg h p l q) :=
  decIsSeg h p l q

/-- `IsRho h head ts c cs`: the chain from `head` in `h` consists of the tail
nodes `ts` leading into the cycle of the nodes `c :: cs`: these nodes are
pairwise distinct, and following `next` from `head` visits `ts`, then
`c :: cs`, and arrives at `c` again. -/
def IsRho (h : Heap) (head : Ptr) (ts : List (Nat × Int)) (c : Nat × Int)
    (cs : List (Nat × Int)) : Prop :=
  ((ts ++ c :: cs).map Prod.fst).Nodup ∧ IsSeg h head (ts ++ c :: cs) (some c.1)

instance (h : Heap) (head : Ptr) (ts : List (Nat × Int)) (c : Nat × Int)
    (cs : List (Nat × Int)) : Decidable (IsRho h head ts c cs) :=
  inferInstanceAs (Decidable (_ ∧ _))

/-- A heap with a tail node at address 0 that leads into a cycle of the two
nodes at addresses 1 and 2. -/
def rhoHeap : Heap :=
  store (store (store (fun _ => none) 2 ⟨30, some 1⟩) 1 ⟨20, some 2⟩) 0 ⟨10, some 1⟩

/-- A heap with a single node at address 0 whose `next` is the node itself. -/
def selfLoopHeap : Heap :=
  store (fun _ => none) 0 ⟨7, some 0⟩

/-! ## Lemmas on lists in the heap -/

theorem store_same (h : Heap) (a : Nat) (n : Node) : store h a n a = some n := by
  simp [store]

theorem store_other (h : Heap) (a b : Nat) (n : Node) (hb : b ≠ a) :
    store h a n b = h b := by
  simp [store, hb]

theorem store_self_eq (h : Heap) (a : Nat) (n : Node) (ha : h a = some n) :
    store h a n = h := by
  funext b
  by_cases hb : b = a
  · subst hb
    simp [store, ha]
  · simp [store, hb]

theorem isList_functional (h : Heap) :
    ∀ (l l' : List (Nat × Int)) (p : Ptr), IsList h p l → IsList h p l' → l = l' := by
  intro l
  induction l with
  | nil =>
    intro l' p h1 h2
    cases l' with
    | nil => rfl
    | cons y l' =>
      simp only [IsList] at h1 h2
      rw [h1] at h2
      cases h2.1
  | cons x l ih =>
    intro l' p h1 h2
    cases l' with
    | nil =>
      simp only [IsList] at h1 h2
      rw [h2] at h1
      cases h1.1
    | cons y l' =>
      obtain ⟨hp, nx, hx, ht⟩ := h1
      obtain ⟨hp', ny, hy, ht'⟩ := h2
      rw [hp] at hp'
      have h1 : x.1 = y.1 := Option.some.inj hp'
      rw [← h1, hx] at hy
      have h2 : x.2 = y.2 := by
        have := Option.some.inj hy
        exact congrArg Node.data this
      have h3 : nx = ny := by
        have := Option.some.inj hy
        exact congrArg Node.next this
      subst h3
      have hxy : x = y := Prod.ext h1 h2
      rw [hxy, ih l' nx ht ht']

theorem isList_suffix (h : Heap) :
    ∀ (l1 l2 : List (Nat × Int)) (p : Ptr), IsList h p (l1 ++ l2) →
      ∃ q, IsList h q l2 := by
  intro l1
  induction l1 with
  | nil => intro l2 p hl; exact ⟨p, hl⟩
  | cons x l1 ih =>
    intro l2 p hl
    obtain ⟨_, nx, _, ht⟩ := hl
    exact ih l2 nx ht

theorem isList_head_not_mem (h : Heap) (p : Ptr) (x : Nat × Int) (l : List (Nat × Int))
    (hl : IsList h p (x :: l)) : x.1 ∉ l.map Prod.fst := by
  intro hmem
  obtain ⟨y, hy, hyx⟩ := List.mem_map.mp hmem
  obtain ⟨l1, l2, hsplit⟩ := List.append_of_mem hy
  obtain ⟨hp, nx, hx, ht⟩ := hl
  rw [hsplit] at ht
  obtain ⟨q, hq⟩ := isList_suffix h l1 (y :: l2) nx ht
  have hq1 : q = some x.1 := by rw [hq.1, hyx]
  have hbig : IsList h q (x :: l) := ⟨hq1, nx, hx, by rw [hsplit]; exact ht⟩
  have heq := isList_functional h _ _ q hq hbig
  have hlen := congrArg List.length heq
  rw [hsplit] at hlen
  simp at hlen
  omega

theorem isList_nodup (h : Heap) :
    ∀ (l : List (Nat × Int)) (p : Ptr), IsList h p l → (l.map Prod.fst).Nodup := by
  intro l
  induction l with
  | nil => intro p _; simp
  | cons x l ih =>
    intro p hl
    have hnot := isList_head_not_mem h p x l hl
    obtain ⟨_, nx, _, ht⟩ := hl
    rw [List.map_cons, List.nodup_cons]
    exact ⟨hnot, ih nx ht⟩

theorem isList_store (h : Heap) (a : Nat) (n : Node) :
    ∀ (l : List (Nat × Int)) (p : Ptr), IsList h p l → a ∉ l.map Prod.fst →
      IsList (store h a n) p l := by
  intro l
  induction l with
  | nil => intro p hl _; exact hl
  | cons x l ih =>
    intro p hl hnot
    obtain ⟨hp, nx, hx, ht⟩ := hl
    rw [List.map_cons, List.mem_cons, not_or] at hnot
    refine ⟨hp, nx, ?_, ih nx ht hnot.2⟩
    rw [store_other h a x.1 n (fun e => hnot.1 e.symm)]
    exact hx

theorem reverse_loop_null (fuel : Nat) (h : Heap) (prev : Ptr) (k : Nat) :
    reverse_loop fuel h prev none k = .ok ⟨h, prev, k⟩ := by
  cases fuel <;> rfl

/-- The loop of `reverse_list`, started on a well-formed list with enough fuel,
runs its body once per node and leaves the relinked heap. -/
theorem reverse_loop_eq :
    ∀ (l : List (Nat × Int)) (fuel : Nat) (h : Heap) (prev cur : Ptr) (k : Nat),
      IsList h cur l → l.length ≤ fuel →
      reverse_loop fuel h prev cur k = .ok ⟨relink h prev l, endPtr prev l, k + l.length⟩ := by
  intro l
  induction l with
  | nil =>
    intro fuel h prev cur k hl _
    simp only [IsList] at hl
    subst hl
    exact reverse_loop_null fuel h prev k
  | cons x l ih =>
    intro fuel h prev cur k hl hf
    have hnot := isList_head_not_mem h cur x l hl
    obtain ⟨hp, nx, hx, ht⟩ := hl
    subst hp
    cases fuel with
    | zero => simp at hf
    | succ fuel =>
      have hf' : l.length ≤ fuel := by simpa using hf
      have ht' := isList_store h x.1 ⟨x.2, prev⟩ l nx ht hnot
      have step : reverse_loop (fuel + 1) h prev (some x.1) k
          = reverse_loop fuel (store h x.1 ⟨x.2, prev⟩) (some x.1) nx (k + 1) := by
        simp only [reverse_loop, hx]
      rw [step, ih fuel _ (some x.1) nx (k + 1) ht' hf']
      simp only [relink, endPtr, List.length_cons]
      congr 2
      omega

theorem relink_outside :
    ∀ (l : List (Nat × Int)) (h : Heap) (prev : Ptr) (b : Nat),
      b ∉ l.map Prod.fst → relink h prev l b = h b := by
  intro l
  induction l with
  | nil => intro h prev b _; rfl
  | cons x l ih =>
    intro h prev b hb
    rw [List.map_cons, List.mem_cons, not_or] at hb
    simp only [relink]
    rw [ih _ _ b hb.2, store_other h x.1 b _ hb.1]

theorem relink_data :
    ∀ (l : List (Nat × Int)) (h : Heap) (prev cur : Ptr) (b : Nat),
      IsList h cur l →
      (relink h prev l b).map Node.data = (h b).map Node.data := by
  intro l
  induction l with
  | nil => intro h prev cur b _; rfl
  | cons x l ih =>
    intro h prev cur b hl
    have hnot := isList_head_not_mem h cur x l hl
    obtain ⟨hp, nx, hx, ht⟩ := hl
    have ht' := isList_store h x.1 ⟨x.2, prev⟩ l nx ht hnot
    simp only [relink]
    rw [ih _ (some x.1) nx b ht']
    by_cases hb : b = x.1
    · subst hb
      rw [store_same, hx]
      rfl
    · rw [store_other h x.1 b _ hb]

theorem relink_isList :
    ∀ (l acc : List (Nat × Int)) (h : Heap) (prev : Ptr),
      (l.map Prod.fst).Nodup → IsList h prev acc →
      (∀ a, a ∈ l.map Prod.fst → a ∉ acc.map Prod.fst) →
      IsList (relink h prev l) (endPtr prev l) (l.reverse ++ acc) := by
  intro l
  induction l with
  | nil => intro acc h prev _ hacc _; simpa [relink, endPtr] using hacc
  | cons x l ih =>
    intro acc h prev hnd hacc hdis
    rw [List.map_cons, List.nodup_cons] at hnd
    have hx : x.1 ∉ acc.map Prod.fst := hdis x.1 (by simp)
    have hacc' : IsList (store h x.1 ⟨x.2, prev⟩) (some x.1) (x :: acc) :=
      ⟨rfl, prev, store_same h x.1 _, isList_store h x.1 _ acc prev hacc hx⟩
    have hdis' : ∀ a, a ∈ l.map Prod.fst → a ∉ (x :: acc).map Prod.fst := by
      intro a ha
      rw [List.map_cons, List.mem_cons, not_or]
      refine ⟨?_, hdis a (by rw [List.map_cons]; exact List.mem_cons_of_mem _ ha)⟩
      intro e
      exact hnd.1 (e ▸ ha)
    have := ih (x :: acc) _ (some x.1) hnd.2 hacc' hdis'
    simpa [relink, endPtr] using this

/-- The heap and pointer `reverse_list` leaves on a well-formed list. -/
theorem reverse_list_eq (fuel : Nat) (h : Heap) (head : Ptr) (l : List (Nat × Int))
    (hl : IsList h head l) (hf : l.length ≤ fuel) :
    reverse_list fuel h head
      = .ok ⟨relink h none l, endPtr none l, if l.length ≤ 1 then 0 else l.length⟩ := by
  cases l with
  | nil =>
    simp only [IsList] at hl
    subst hl
    rfl
  | cons x l =>
    have hloop := reverse_loop_eq (x :: l) fuel h none head 0 hl hf
    obtain ⟨hp, nx, hx, ht⟩ := hl
    subst hp
    cases l with
    | nil =>
      simp only [IsList] at ht
      subst ht
      simp only [reverse_list, hx, relink, endPtr]
      rw [store_self_eq h x.1 _ hx]
      simp
    | cons y l =>
      have hnx : nx = some y.1 := ht.1
      subst hnx
      simp only [reverse_list, hx]
      rw [if_neg (by simp), hloop]
      simp

/-- The list `reverse_list` leaves is the reversal of the list it was given. -/
theorem reverse_list_isList (h : Heap) (head : Ptr) (l : List (Nat × Int))
    (hl : IsList h head l) :
    IsList (relink h none l) (endPtr none l) l.reverse := by
  have := relink_isList l [] h none (isList_nodup h l head hl) rfl (by simp)
  simpa using this

theorem hasValues_of_isList (h : Heap) :
    ∀ (l : List (Nat × Int)) (p : Ptr), IsList h p l → HasValues h p (l.map Prod.snd) := by
  intro l
  induction l with
  | nil => intro p hl; exact hl
  | cons x l ih =>
    intro p hl
    obtain ⟨hp, nx, hx, ht⟩ := hl
    exact ⟨x.1, nx, hp, hx, ih nx ht⟩

theorem isList_of_hasValues (h : Heap) :
    ∀ (vs : List Int) (p : Ptr), HasValues h p vs →
      ∃ l, IsList h p l ∧ l.map Prod.snd = vs := by
  intro vs
  induction vs with
  | nil => intro p hv; exact ⟨[], hv, rfl⟩
  | cons v vs ih =>
    intro p hv
    obtain ⟨a, nx, hp, ha, ht⟩ := hv
    obtain ⟨l, hl, hm⟩ := ih nx ht
    exact ⟨(a, v) :: l, ⟨hp, nx, ha, hl⟩, by simp [hm]⟩

theorem endPtr_eq (prev : Ptr) (l : List (Nat × Int)) :
    endPtr prev l = match l.getLast? with
      | some x => some x.1
      | none => prev := by
  induction l generalizing prev with
  | nil => rfl
  | cons x l ih =>
    simp only [endPtr]
    rw [ih]
    cases l with
    | nil => rfl
    | cons y l =>
      have hne : (y :: l).getLast? = some ((y :: l).getLast (List.cons_ne_nil y l)) :=
        List.getLast?_eq_getLast _ _
      rw [List.getLast?_cons_cons, hne]

theorem relink_head (h : Heap) (p : Ptr) (x : Nat × Int) (l : List (Nat × Int))
    (hl : IsList h p (x :: l)) : relink h none (x :: l) x.1 = some ⟨x.2, none⟩ := by
  have hnot := isList_head_not_mem h p x l hl
  simp only [relink]
  rw [relink_outside l _ (some x.1) x.1 hnot, store_same]

/-! ## Reversal -/

/-- C1: for a finite acyclic list whose values in link order are `vs`, the list
reached from the head returned by `reverse_list` has the values of `vs` in
reverse order. -/
theorem reverse_list_reverses_values (fuel : Nat) (h : Heap) (head : Ptr) (vs : List Int)
    (hv : HasValues h head vs) (hf : vs.length ≤ fuel) :
    ∃ r, reverse_list fuel h head = .ok r ∧ HasValues r.heap r.ret vs.reverse := by
  obtain ⟨l, hl, hm⟩ := isList_of_hasValues h vs head hv
  have hlen : l.length = vs.length := by rw [← hm, List.length_map]
  refine ⟨_, reverse_list_eq fuel h head l hl (by omega), ?_⟩
  have := hasValues_of_isList _ _ _ (reverse_list_isList h head l hl)
  rw [List.map_reverse, hm] at this
  exact this

/-- C1, on the lists of the test program: `[1,2,3,4,5]` gives `[5,4,3,2,1]` and
`[10,20]` gives `[20,10]`. -/
theorem reverse_list_reverses_values_witness :
    (HasValues (build 0 [1, 2, 3, 4, 5]) (some 0) [1, 2, 3, 4, 5] ∧
      ∃ r, reverse_list 5 (build 0 [1, 2, 3, 4, 5]) (some 0) = .ok r ∧
        HasValues r.heap r.ret [5, 4, 3, 2, 1]) ∧
    (HasValues (build 0 [10, 20]) (some 0) [10, 20] ∧
      ∃ r, reverse_list 2 (build 0 [10, 20]) (some 0) = .ok r ∧
        HasValues r.heap r.ret [20, 10]) :=
  ⟨⟨by decide, reverse_list_reverses_values 5 (build 0 [1, 2, 3, 4, 5]) (some 0)
      [1, 2, 3, 4, 5] (by decide) (by decide)⟩,
   ⟨by decide, reverse_list_reverses_values 2 (build 0 [10, 20]) (some 0)
      [10, 20] (by decide) (by decide)⟩⟩

/-- C2: applying `reverse_list` to the head returned by `reverse_list` yields a
list whose values in link order are those of the original list, in the original
order. -/
theorem reverse_list_twice_values (fuel : Nat) (h : Heap) (head : Ptr) (vs : List Int)
    (hv : HasValues h head vs) (hf : vs.length ≤ fuel) :
    ∃ r1 r2, reverse_list fuel h head = .ok r1 ∧
      reverse_list fuel r1.heap r1.ret = .ok r2 ∧ HasValues r2.heap r2.ret vs := by
  obtain ⟨l, hl, hm⟩ := isList_of_hasValues h vs head hv
  have hlen : l.length = vs.length := by rw [← hm, List.length_map]
  have h1 := reverse_list_isList h head l hl
  have h2 := reverse_list_isList _ _ _ h1
  refine ⟨_, _, reverse_list_eq fuel h head l hl (by omega),
    reverse_list_eq fuel _ _ l.reverse h1 (by rw [List.length_reverse]; omega), ?_⟩
  have := hasValues_of_isList _ _ _ h2
  rw [List.reverse_reverse, hm] at this
  exact this

/-- C2, on the list of the test program: `[1,2,3]` reversed twice is `[1,2,3]`. -/
theorem reverse_list_twice_values_witness :
    HasValues (build 0 [1, 2, 3]) (some 0) [1, 2, 3] ∧
    ∃ r1 r2, reverse_list 3 (build 0 [1, 2, 3]) (some 0) = .ok r1 ∧
      reverse_list 3 r1.heap r1.ret = .ok r2 ∧ HasValues r2.heap r2.ret [1, 2, 3] :=
  ⟨by decide, reverse_list_twice_values 3 (build 0 [1, 2, 3]) (some 0) [1, 2, 3]
    (by decide) (by decide)⟩

/-- C3: on a non-empty finite acyclic list with nodes `x :: l`, `reverse_list`
returns the last node of the chain; following `next` from it visits the nodes
of the chain in reverse order, each once, and ends at the original head, whose
`next` is `NULL`. -/
theorem reverse_list_nodes (fuel : Nat) (h : Heap) (head : Ptr) (x : Nat × Int)
    (l : List (Nat × Int)) (hl : IsList h head (x :: l)) (hf : (x :: l).length ≤ fuel) :
    ∃ r, reverse_list fuel h head = .ok r ∧
      r.ret = some ((x :: l).getLast (List.cons_ne_nil x l)).1 ∧
      IsList r.heap r.ret (x :: l).reverse ∧
      ((x :: l).reverse.map Prod.fst).Nodup ∧
      (x :: l).reverse.getLast? = some x ∧
      head = some x.1 ∧
      r.heap x.1 = some ⟨x.2, none⟩ := by
  have hrev := reverse_list_isList h head (x :: l) hl
  refine ⟨_, reverse_list_eq fuel h head (x :: l) hl hf, ?_, hrev,
    isList_nodup _ _ _ hrev, by simp, hl.1, relink_head h head x l hl⟩
  show endPtr none (x :: l) = _
  rw [endPtr_eq, List.getLast?_eq_getLast _ (List.cons_ne_nil x l)]

/-- C3 on the three-node list at addresses 0, 1, 2. -/
theorem reverse_list_nodes_witness :
    IsList (build 0 [1, 2, 3]) (some 0) [(0, 1), (1, 2), (2, 3)] ∧
    ∃ r, reverse_list 3 (build 0 [1, 2, 3]) (some 0) = .ok r ∧
      r.ret = some 2 ∧
      IsList r.heap r.ret [(2, 3), (1, 2), (0, 1)] ∧
      ([(2, 3), (1, 2), ((0 : Nat), (1 : Int))].map Prod.fst).Nodup ∧
      [(2, 3), (1, 2), ((0 : Nat), (1 : Int))].getLast? = some (0, 1) ∧
      some 0 = some 0 ∧
      r.heap 0 = some ⟨1, none⟩ :=
  ⟨by decide, reverse_list_nodes 3 (build 0 [1, 2, 3]) (some 0) (0, 1) [(1, 2), (2, 3)]
    (by decide) (by decide)⟩

/-- C4: `reverse_list` is a no-op on lists of length 0 or 1. On `NULL` it
returns `NULL`; on a single node with value `v` it returns that same node,
whose value is still `v` and whose `next` is still `NULL`. In both cases the
heap is unchanged and the loop is not entered, whatever the fuel. -/
theorem reverse_list_noop (fuel : Nat) (h : Heap) :
    reverse_list fuel h none = .ok ⟨h, none, 0⟩ ∧
    ∀ (a : Nat) (v : Int), IsList h (some a) [(a, v)] →
      reverse_list fuel h (some a) = .ok ⟨h, some a, 0⟩ ∧ h a = some ⟨v, none⟩ := by
  refine ⟨rfl, ?_⟩
  intro a v hl
  obtain ⟨_, nx, hx, ht⟩ := hl
  simp only [IsList] at ht
  subst ht
  refine ⟨?_, hx⟩
  simp only [reverse_list]
  rw [show h a = some ⟨v, none⟩ from hx]
  simp

/-- C4 on the single-node list of the test program, with no fuel at all. -/
theorem reverse_list_noop_witness :
    IsList (build 0 [1]) (some 0) [(0, 1)] ∧
    reverse_list 0 (build 0 [1]) (some 0) = .ok ⟨build 0 [1], some 0, 0⟩ ∧
    build 0 [1] 0 = some ⟨1, none⟩ :=
  ⟨by decide, (reverse_list_noop 0 (build 0 [1])).2 0 1 (by decide)⟩

/-- C5: `reverse_list` allocates no node and alters no value. The addresses at
which a node lives are the same after the call as before, every node keeps its
`data`, and a node outside the chain reached from `head` is left as it was. -/
theorem reverse_list_frame (fuel : Nat) (h : Heap) (head : Ptr) (l : List (Nat × Int))
    (hl : IsList h head l) (hf : l.length ≤ fuel) :
    ∃ r, reverse_list fuel h head = .ok r ∧
      (∀ b, (r.heap b).isSome = (h b).isSome) ∧
      (∀ b, (r.heap b).map Node.data = (h b).map Node.data) ∧
      (∀ b, b ∉ l.map Prod.fst → r.heap b = h b) := by
  refine ⟨_, reverse_list_eq fuel h head l hl hf, ?_, ?_, ?_⟩
  · intro b
    have := congrArg Option.isSome (relink_data l h none head b hl)
    simpa using this
  · intro b
    exact relink_data l h none head b hl
  · intro b hb
    exact relink_outside l h none b hb

/-- C5 on a three-node list at addresses 0, 1, 2. -/
theorem reverse_list_frame_witness :
    IsList (build 0 [1, 2, 3]) (some 0) [(0, 1), (1, 2), (2, 3)] ∧
    ∃ r, reverse_list 3 (build 0 [1, 2, 3]) (some 0) = .ok r ∧
      (∀ b, (r.heap b).isSome = (build 0 [1, 2, 3] b).isSome) ∧
      (∀ b, (r.heap b).map Node.data = (build 0 [1, 2, 3] b).map Node.data) ∧
      (∀ b, b ∉ [(0, 1), (1, 2), ((2 : Nat), (3 : Int))].map Prod.fst →
        r.heap b = build 0 [1, 2, 3] b) :=
  ⟨by decide, reverse_list_frame 3 (build 0 [1, 2, 3]) (some 0) [(0, 1), (1, 2), (2, 3)]
    (by decide) (by decide)⟩

/-- C6: the number of nodes reachable from the head returned by `reverse_list`
equals the number of nodes of the list it was given. -/
theorem reverse_list_length (fuel : Nat) (h : Heap) (head : Ptr) (l : List (Nat × Int))
    (hl : IsList h head l) (hf : l.length ≤ fuel) :
    ∃ r, reverse_list fuel h head = .ok r ∧
      (∃ l', IsList r.heap r.ret l') ∧
      ∀ l', IsList r.heap r.ret l' → l'.length = l.length := by
  have hrev := reverse_list_isList h head l hl
  refine ⟨_, reverse_list_eq fuel h head l hl hf, ⟨_, hrev⟩, ?_⟩
  intro l' hl'
  rw [isList_functional _ _ _ _ hl' hrev, List.length_reverse]

/-- C6 on the two-node list of the test program. -/
theorem reverse_list_length_witness :
    IsList (build 0 [10, 20]) (some 0) [(0, 10), (1, 20)] ∧
    ∃ r, reverse_list 2 (build 0 [10, 20]) (some 0) = .ok r ∧
      (∃ l', IsList r.heap r.ret l') ∧
      ∀ l', IsList r.heap r.ret l' → l'.length = 2 :=
  ⟨by decide, reverse_list_length 2 (build 0 [10, 20]) (some 0) [(0, 10), (1, 20)]
    (by decide) (by decide)⟩

/-! ## Printing -/

theorem print_loop_null (fuel : Nat) (h : Heap) (out : String) :
    print_loop fuel h none out = .ok (h, out) := by
  cases fuel <;> rfl

theorem print_loop_eq :
    ∀ (vs : List Int) (fuel : Nat) (h : Heap) (p : Ptr) (out : String),
      HasValues h p vs → vs.length ≤ fuel →
      print_loop fuel h p out = .ok (h, out ++ joined vs) := by
  intro vs
  induction vs with
  | nil =>
    intro fuel h p out hv _
    simp only [HasValues] at hv
    subst hv
    rw [print_loop_null]
    simp [joined]
  | cons v vs ih =>
    intro fuel h p out hv hf
    obtain ⟨a, nx, hp, ha, ht⟩ := hv
    subst hp
    cases fuel with
    | zero => simp at hf
    | succ fuel =>
      have hf' : vs.length ≤ fuel := by simpa using hf
      cases vs with
      | nil =>
        simp only [HasValues] at ht
        subst ht
        simp only [print_loop, ha]
        rfl
      | cons w vs =>
        have hnx : nx ≠ none := by
          obtain ⟨b, _, hb, _⟩ := ht
          rw [hb]
          simp
        simp only [print_loop, ha]
        rw [if_pos hnx, ih fuel h nx _ ht hf']
        simp only [joined, String.append_assoc]

theorem print_list_eq (fuel : Nat) (h : Heap) (head : Ptr) (vs : List Int)
    (hv : HasValues h head vs) (hf : vs.length ≤ fuel) :
    print_list fuel h head = .ok (h, joined vs ++ "\n") := by
  simp only [print_list]
  rw [print_loop_eq vs fuel h head "" hv hf]
  simp

theorem intercalate_go_eq (s : String) :
    ∀ (l : List String) (acc : String),
      String.intercalate.go acc s l = acc ++ String.intercalate.go "" s l := by
  intro l
  induction l with
  | nil => intro acc; simp [String.intercalate.go]
  | cons a l ih =>
    intro acc
    simp only [String.intercalate.go]
    rw [ih (acc ++ s ++ a), ih ("" ++ s ++ a)]
    simp [String.append_assoc]

theorem joined_eq_intercalate :
    ∀ vs : List Int, joined vs = " -> ".intercalate (vs.map toString) := by
  intro vs
  induction vs with
  | nil => rfl
  | cons v vs ih =>
    cases vs with
    | nil => rfl
    | cons w vs =>
      simp only [joined]
      rw [ih]
      simp only [List.map_cons, String.intercalate, String.intercalate.go]
      rw [intercalate_go_eq " -> " _ (toString v ++ " -> " ++ toString w),
        intercalate_go_eq " -> " _ (toString w)]
      simp [String.append_assoc]

/-- C7: after `reverse_list` on a non-empty finite acyclic list with first
node `a` and first value `v`, the old head denotes a single final node: its
`next` is `NULL`, its value is `v`, the chain from it is that one node, and
`print_list` on it writes `v` followed by a newline. -/
theorem reverse_list_old_head (fuel : Nat) (h : Heap) (a : Nat) (v : Int)
    (l : List (Nat × Int)) (hl : IsList h (some a) ((a, v) :: l))
    (hf : ((a, v) :: l).length ≤ fuel) :
    ∃ r, reverse_list fuel h (some a) = .ok r ∧
      r.heap a = some ⟨v, none⟩ ∧
      IsList r.heap (some a) [(a, v)] ∧
      ∀ fuel', 1 ≤ fuel' → print_list fuel' r.heap (some a) = .ok (r.heap, toString v ++ "\n") := by
  have hhead : relink h none ((a, v) :: l) a = some ⟨v, none⟩ :=
    relink_head h (some a) (a, v) l hl
  refine ⟨_, reverse_list_eq fuel h (some a) _ hl hf, hhead, ⟨rfl, none, hhead, rfl⟩, ?_⟩
  intro fuel' hf'
  have hv : HasValues (relink h none ((a, v) :: l)) (some a) [v] :=
    ⟨a, none, rfl, hhead, rfl⟩
  exact print_list_eq fuel' _ (some a) [v] hv hf'

/-- C7 on the five-node list of the test program: the old head prints as `1`. -/
theorem reverse_list_old_head_witness :
    IsList (build 0 [1, 2, 3, 4, 5]) (some 0) [(0, 1), (1, 2), (2, 3), (3, 4), (4, 5)] ∧
    ∃ r, reverse_list 5 (build 0 [1, 2, 3, 4, 5]) (some 0) = .ok r ∧
      r.heap 0 = some ⟨1, none⟩ ∧
      IsList r.heap (some 0) [(0, 1)] ∧
      ∀ fuel', 1 ≤ fuel' → print_list fuel' r.heap (some 0) = .ok (r.heap, "1\n") :=
  ⟨by decide, reverse_list_old_head 5 (build 0 [1, 2, 3, 4, 5]) 0 1
    [(1, 2), (2, 3), (3, 4), (4, 5)] (by decide) (by decide)⟩

/-- C8: for a finite acyclic list with values `vs`, `print_list` writes the
decimal renderings of the values in link order, joined by `" -> "`, followed by
one newline; for the empty list it writes just the newline. -/
theorem print_list_text (fuel : Nat) (h : Heap) (head : Ptr) (vs : List Int)
    (hv : HasValues h head vs) (hf : vs.length ≤ fuel) :
    (∃ h1, print_list fuel h head
      = .ok (h1, " -> ".intercalate (vs.map toString) ++ "\n")) ∧
    (vs = [] → ∃ h1, print_list fuel h head = .ok (h1, "\n")) := by
  have hp := print_list_eq fuel h head vs hv hf
  rw [joined_eq_intercalate] at hp
  refine ⟨⟨h, hp⟩, ?_⟩
  intro hnil
  subst hnil
  exact ⟨h, hp⟩

/-- C8 on the lists of the test program: `[1,2,3,4,5]` is written as
`1 -> 2 -> 3 -> 4 -> 5` and a newline. -/
theorem print_list_text_witness :
    HasValues (build 0 [1, 2, 3, 4, 5]) (some 0) [1, 2, 3, 4, 5] ∧
    ∃ h1, print_list 5 (build 0 [1, 2, 3, 4, 5]) (some 0)
      = .ok (h1, "1 -> 2 -> 3 -> 4 -> 5\n") :=
  ⟨by decide, (print_list_text 5 (build 0 [1, 2, 3, 4, 5]) (some 0) [1, 2, 3, 4, 5]
    (by decide) (by decide)).1⟩

/-- C9: `print_list` is read-only. On a finite acyclic list it leaves the heap
it was given, so printing the same head again writes the same text. -/
theorem print_list_read_only (fuel : Nat) (h : Heap) (head : Ptr) (vs : List Int)
    (hv : HasValues h head vs) (hf : vs.length ≤ fuel) :
    ∃ h1 out, print_list fuel h head = .ok (h1, out) ∧ h1 = h ∧
      print_list fuel h1 head = .ok (h1, out) := by
  have hp := print_list_eq fuel h head vs hv hf
  exact ⟨h, _, hp, rfl, hp⟩

/-- C9 on the three-node list of the test program. -/
theorem print_list_read_only_witness :
    HasValues (build 0 [1, 2, 3]) (some 0) [1, 2, 3] ∧
    ∃ h1 out, print_list 3 (build 0 [1, 2, 3]) (some 0) = .ok (h1, out) ∧
      h1 = build 0 [1, 2, 3] ∧ print_list 3 h1 (some 0) = .ok (h1, out) :=
  ⟨by decide, print_list_read_only 3 (build 0 [1, 2, 3]) (some 0) [1, 2, 3]
    (by decide) (by decide)⟩

/-! ## Allocation -/

/-- C10: when `malloc` succeeds with storage at an address `a` where no node
lives, `create_node` returns `a`, the node there has the given value and a
`NULL` successor, and every existing node is unchanged; when `malloc` fails,
`create_node` returns no node and the process exits with status 1. -/
theorem create_node_spec (h : Heap) (data : Int) :
    (∀ a, h a = none →
      ∃ h1, create_node (some a) h data = .returned h1 (some a) ∧
        h1 a = some ⟨data, none⟩ ∧
        (∀ b, b ≠ a → h1 b = h b) ∧
        (∀ b n, h b = some n → h1 b = some n)) ∧
    (∃ msg, create_node none h data = .exited 1 msg) := by
  refine ⟨?_, ⟨_, rfl⟩⟩
  intro a ha
  refine ⟨_, rfl, store_same h a _, fun b hb => store_other h a b _ hb, ?_⟩
  intro b n hb
  have hne : b ≠ a := by
    intro e
    rw [e, ha] at hb
    cases hb
  rw [store_other h a b _ hne, hb]

/-- C10 on the heap of the test program after its first node was created. -/
theorem create_node_spec_witness :
    build 0 [1] 1 = none ∧
    ∃ h1, create_node (some 1) (build 0 [1]) 2 = .returned h1 (some 1) ∧
      h1 1 = some ⟨2, none⟩ ∧
      (∀ b, b ≠ 1 → h1 b = build 0 [1] b) ∧
      (∀ b n, build 0 [1] b = some n → h1 b = some n) :=
  ⟨by decide, (create_node_spec (build 0 [1]) 2).1 1 (by decide)⟩

/-! ## Deallocation and totality -/

theorem free_loop_null (fuel : Nat) (h : Heap) (live : Nat → Bool) (tr : List Event) :
    free_loop fuel h live tr none = .ok ⟨live, tr⟩ := by
  cases fuel <;> rfl

theorem free_loop_eq :
    ∀ (l : List (Nat × Int)) (fuel : Nat) (h : Heap) (live : Nat → Bool)
      (tr : List Event) (cur : Ptr),
      IsList h cur l → (∀ a, a ∈ l.map Prod.fst → live a = true) → l.length ≤ fuel →
      free_loop fuel h live tr cur = .ok ⟨releaseAll live l, tr ++ accesses l⟩ := by
  intro l
  induction l with
  | nil =>
    intro fuel h live tr cur hl _ _
    simp only [IsList] at hl
    subst hl
    rw [free_loop_null]
    simp [releaseAll, accesses]
  | cons x l ih =>
    intro fuel h live tr cur hl hlive hf
    have hnot := isList_head_not_mem h cur x l hl
    obtain ⟨hp, nx, hx, ht⟩ := hl
    subst hp
    cases fuel with
    | zero => simp at hf
    | succ fuel =>
      have hf' : l.length ≤ fuel := by simpa using hf
      have hx1 : live x.1 = true := hlive x.1 (by simp)
      have hlive' : ∀ a, a ∈ l.map Prod.fst → release live x.1 a = true := by
        intro a ha
        have hne : a ≠ x.1 := fun e => hnot (e ▸ ha)
        simp only [release, if_neg hne]
        exact hlive a (by rw [List.map_cons]; exact List.mem_cons_of_mem _ ha)
      have step : free_loop (fuel + 1) h live tr (some x.1)
          = free_loop fuel h (release live x.1) (tr ++ [.readNext x.1, .free x.1]) nx := by
        simp only [free_loop, load, hx1, if_true, hx]
      rw [step, ih fuel h _ _ nx ht hlive' hf']
      simp [releaseAll, accesses]

theorem released_accesses : ∀ l : List (Nat × Int), released (accesses l) = l.map Prod.fst := by
  intro l
  induction l with
  | nil => rfl
  | cons x l ih => simp [accesses, released, ih]

theorem releaseAll_outside :
    ∀ (l : List (Nat × Int)) (live : Nat → Bool) (a : Nat),
      a ∉ l.map Prod.fst → releaseAll live l a = live a := by
  intro l
  induction l with
  | nil => intro live a _; rfl
  | cons x l ih =>
    intro live a ha
    rw [List.map_cons, List.mem_cons, not_or] at ha
    simp only [releaseAll]
    rw [ih _ a ha.2]
    simp [release, ha.1]

theorem releaseAll_dead (dead : Nat) :
    ∀ (l : List (Nat × Int)) (live : Nat → Bool),
      live dead = false → releaseAll live l dead = false := by
  intro l
  induction l with
  | nil => intro live hd; exact hd
  | cons x l ih =>
    intro live hd
    simp only [releaseAll]
    apply ih
    simp only [release]
    split
    · rfl
    · exact hd

theorem releaseAll_inside :
    ∀ (l : List (Nat × Int)) (live : Nat → Bool) (a : Nat),
      a ∈ l.map Prod.fst → releaseAll live l a = false := by
  intro l
  induction l with
  | nil => intro live a ha; simp at ha
  | cons x l ih =>
    intro live a ha
    rw [List.map_cons, List.mem_cons] at ha
    simp only [releaseAll]
    by_cases hax : a = x.1
    · apply releaseAll_dead
      simp [release, hax]
    · rcases ha with ha | ha
      · exact absurd ha hax
      · exact ih _ a ha

/-- C11: on a finite acyclic (`NULL`-terminated) chain of live nodes,
`reverse_list`, `print_list` and `free_list` are total: with fuel for one
execution of a loop body per node, each of them (and the loop of
`reverse_list` on its own) returns, with neither a fault nor a timeout. -/
theorem total_on_lists (fuel : Nat) (h : Heap) (live : Nat → Bool) (head : Ptr)
    (l : List (Nat × Int)) (hl : IsList h head l)
    (hlive : ∀ a, a ∈ l.map Prod.fst → live a = true) (hf : l.length ≤ fuel) :
    (∃ r, reverse_list fuel h head = .ok r) ∧
    (∃ r, reverse_loop fuel h none head 0 = .ok r) ∧
    (∃ o, print_list fuel h head = .ok o) ∧
    (∃ f, free_list fuel h live head = .ok f) := by
  have hprint := print_list_eq fuel h head (l.map Prod.snd) (hasValues_of_isList h l head hl)
    (by rw [List.length_map]; exact hf)
  exact ⟨⟨_, reverse_list_eq fuel h head l hl hf⟩,
    ⟨_, reverse_loop_eq l fuel h none head 0 hl hf⟩, ⟨_, hprint⟩,
    ⟨_, free_loop_eq l fuel h live [] head hl hlive hf⟩⟩

/-- C11 on the five-node list of the test program, all of whose nodes are live. -/
theorem total_on_lists_witness :
    IsList (build 0 [1, 2, 3, 4, 5]) (some 0) [(0, 1), (1, 2), (2, 3), (3, 4), (4, 5)] ∧
    (∃ r, reverse_list 5 (build 0 [1, 2, 3, 4, 5]) (some 0) = .ok r) ∧
    (∃ r, reverse_loop 5 (build 0 [1, 2, 3, 4, 5]) none (some 0) 0 = .ok r) ∧
    (∃ o, print_list 5 (build 0 [1, 2, 3, 4, 5]) (some 0) = .ok o) ∧
    (∃ f, free_list 5 (build 0 [1, 2, 3, 4, 5]) (fun _ => true) (some 0) = .ok f) :=
  ⟨by decide, total_on_lists 5 (build 0 [1, 2, 3, 4, 5]) (fun _ => true) (some 0)
    [(0, 1), (1, 2), (2, 3), (3, 4), (4, 5)] (by decide) (fun _ _ => rfl) (by decide)⟩

/-- C12: on a finite acyclic chain of `n` live nodes, `free_list` returns; for
each node in link order it reads `next` and then releases the node, so every
read is of a live node; the addresses released are exactly those of the chain,
in link order and each once; afterwards the nodes of the chain are not live and
the live flag of every other address is unchanged. -/
theorem free_list_releases_chain (fuel : Nat) (h : Heap) (live : Nat → Bool) (head : Ptr)
    (l : List (Nat × Int)) (hl : IsList h head l)
    (hlive : ∀ a, a ∈ l.map Prod.fst → live a = true) (hf : l.length ≤ fuel) :
    ∃ r, free_list fuel h live head = .ok r ∧
      r.trace = accesses l ∧
      released r.trace = l.map Prod.fst ∧
      (released r.trace).length = l.length ∧
      (released r.trace).Nodup ∧
      (∀ a, a ∈ l.map Prod.fst → r.live a = false) ∧
      (∀ a, a ∉ l.map Prod.fst → r.live a = live a) := by
  have hrun : free_list fuel h live head = .ok ⟨releaseAll live l, accesses l⟩ := by
    have := free_loop_eq l fuel h live [] head hl hlive hf
    simpa [free_list] using this
  refine ⟨_, hrun, rfl, released_accesses l, ?_, ?_, ?_, ?_⟩
  · show (released (accesses l)).length = l.length
    rw [released_accesses, List.length_map]
  · show (released (accesses l)).Nodup
    rw [released_accesses]
    exact isList_nodup h l head hl
  · intro a ha
    exact releaseAll_inside l live a ha
  · intro a ha
    exact releaseAll_outside l live a ha

/-- C12 on a three-node chain at addresses 0, 1, 2, all of whose nodes are live. -/
theorem free_list_releases_chain_witness :
    IsList (build 0 [1, 2, 3]) (some 0) [(0, 1), (1, 2), (2, 3)] ∧
    ∃ r, free_list 3 (build 0 [1, 2, 3]) (fun _ => true) (some 0) = .ok r ∧
      r.trace = [.readNext 0, .free 0, .readNext 1, .free 1, .readNext 2, .free 2] ∧
      released r.trace = [0, 1, 2] ∧
      (released r.trace).length = 3 ∧
      (released r.trace).Nodup ∧
      (∀ a, a ∈ [(0, 1), (1, 2), ((2 : Nat), (3 : Int))].map Prod.fst → r.live a = false) ∧
      (∀ a, a ∉ [(0, 1), (1, 2), ((2 : Nat), (3 : Int))].map Prod.fst → r.live a = true) :=
  ⟨by decide, free_list_releases_chain 3 (build 0 [1, 2, 3]) (fun _ => true) (some 0)
    [(0, 1), (1, 2), (2, 3)] (by decide) (fun _ _ => rfl) (by decide)⟩

/-! ## Iterations of the loop of `reverse_list` -/

theorem reverse_loop_tests_eq :
    ∀ (l : List (Nat × Int)) (fuel : Nat) (h : Heap) (prev cur : Ptr) (t : Nat),
      IsList h cur l → l.length ≤ fuel →
      reverse_loop_tests fuel h prev cur t = .ok (t + l.length + 1) := by
  intro l
  induction l with
  | nil =>
    intro fuel h prev cur t hl _
    simp only [IsList] at hl
    subst hl
    cases fuel <;> rfl
  | cons x l ih =>
    intro fuel h prev cur t hl hf
    have hnot := isList_head_not_mem h cur x l hl
    obtain ⟨hp, nx, hx, ht⟩ := hl
    subst hp
    cases fuel with
    | zero => simp at hf
    | succ fuel =>
      have hf' : l.length ≤ fuel := by simpa using hf
      have ht' := isList_store h x.1 ⟨x.2, prev⟩ l nx ht hnot
      have step : reverse_loop_tests (fuel + 1) h prev (some x.1) t
          = reverse_loop_tests fuel (store h x.1 ⟨x.2, prev⟩) (some x.1) nx (t + 1) := by
        simp only [reverse_loop_tests, hx]
      rw [step, ih fuel _ (some x.1) nx (t + 1) ht' hf']
      simp only [List.length_cons]
      congr 1
      omega

theorem reverse_list_tests_eq (fuel : Nat) (h : Heap) (head : Ptr) (l : List (Nat × Int))
    (hl : IsList h head l) (hf : l.length ≤ fuel) :
    reverse_list_tests fuel h head = .ok (if l.length ≤ 1 then 0 else l.length + 1) := by
  cases l with
  | nil =>
    simp only [IsList] at hl
    subst hl
    rfl
  | cons x l =>
    have hloop := reverse_loop_tests_eq (x :: l) fuel h none head 0 hl hf
    obtain ⟨hp, nx, hx, ht⟩ := hl
    subst hp
    cases l with
    | nil =>
      simp only [IsList] at ht
      subst ht
      simp [reverse_list_tests, hx]
    | cons y l =>
      have hnx : nx = some y.1 := ht.1
      subst hnx
      simp only [reverse_list_tests, hx]
      rw [if_neg (by simp), hloop]
      simp

/-- C13, as the code has it: on an `n`-node finite acyclic list `reverse_list`
returns; for `n ≥ 2` the body of its loop is executed exactly `n` times and the
condition of the loop is evaluated exactly `n + 1` times; for `n ≤ 1` the guard
returns before the loop, whose body and condition are executed 0 times. -/
theorem reverse_list_iterations (fuel : Nat) (h : Heap) (head : Ptr) (l : List (Nat × Int))
    (hl : IsList h head l) (hf : l.length ≤ fuel) :
    ∃ r t, reverse_list fuel h head = .ok r ∧ reverse_list_tests fuel h head = .ok t ∧
      (2 ≤ l.length → r.iters = l.length ∧ t = l.length + 1) ∧
      (l.length ≤ 1 → r.iters = 0 ∧ t = 0) := by
  refine ⟨_, _, reverse_list_eq fuel h head l hl hf, reverse_list_tests_eq fuel h head l hl hf,
    ?_, ?_⟩
  · intro h2
    have hn : ¬ l.length ≤ 1 := by omega
    simp [hn]
  · intro h1
    simp [h1]

/-- C13 as amended, on the three-node list of the test program. -/
theorem reverse_list_iterations_witness :
    IsList (build 0 [1, 2, 3]) (some 0) [(0, 1), (1, 2), (2, 3)] ∧
    ∃ r t, reverse_list 3 (build 0 [1, 2, 3]) (some 0) = .ok r ∧
      reverse_list_tests 3 (build 0 [1, 2, 3]) (some 0) = .ok t ∧
      (2 ≤ 3 → r.iters = 3 ∧ t = 3 + 1) ∧
      (3 ≤ 1 → r.iters = 0 ∧ t = 0) :=
  ⟨by decide, reverse_list_iterations 3 (build 0 [1, 2, 3]) (some 0)
    [(0, 1), (1, 2), (2, 3)] (by decide) (by decide)⟩

/-- C13 as stated fails: on the empty list (`n = 0`) and on the single-node
list (`n = 1`) the loop of `reverse_list` is not reached, so neither its body
nor its condition is executed `n + 1` times; on the three-node list the body is
executed 3 times, not 4. -/
theorem reverse_list_iterations_counterexample :
    (∃ r, reverse_list 4 (build 0 []) none = .ok r ∧ r.iters = 0 ∧ r.iters ≠ 0 + 1) ∧
    reverse_list_tests 4 (build 0 []) none = .ok 0 ∧
    (IsList (build 0 [1]) (some 0) [(0, 1)] ∧
      ∃ r, reverse_list 4 (build 0 [1]) (some 0) = .ok r ∧ r.iters = 0 ∧ r.iters ≠ 1 + 1) ∧
    reverse_list_tests 4 (build 0 [1]) (some 0) = .ok 0 ∧
    (IsList (build 0 [1, 2, 3]) (some 0) [(0, 1), (1, 2), (2, 3)] ∧
      ∃ r, reverse_list 4 (build 0 [1, 2, 3]) (some 0) = .ok r ∧ r.iters = 3 ∧
        r.iters ≠ 3 + 1) :=
  ⟨⟨_, rfl, rfl, by decide⟩, rfl, ⟨by decide, _, rfl, rfl, by decide⟩, rfl,
    ⟨by decide, _, rfl, rfl, by decide⟩⟩

/-! ## The loop invariant of `reverse_list` -/

theorem reverse_loop_step (fuel : Nat) (h : Heap) (prev : Ptr) (c : Nat) (i : Nat) :
    reverse_loop (fuel + 1) h prev (some c) i
      = match reverse_body h prev c with
        | none => .fault
        | some s => reverse_loop fuel s.1 s.2.1 s.2.2 (i + 1) := by
  simp only [reverse_loop, reverse_body]
  cases h c <;> rfl

theorem reverse_loop_run :
    ∀ (k f : Nat) (h : Heap) (prev cur : Ptr) (i : Nat) (s : Heap × Ptr × Ptr),
      reverse_run k h prev cur = some s →
      reverse_loop (k + f) h prev cur i = reverse_loop f s.1 s.2.1 s.2.2 (i + k) := by
  intro k
  induction k with
  | zero =>
    intro f h prev cur i s hs
    simp only [reverse_run, Option.some.injEq] at hs
    subst hs
    simp
  | succ k ih =>
    intro f h prev cur i s hs
    cases cur with
    | none => simp [reverse_run] at hs
    | some c =>
      have hfuel : k + 1 + f = (k + f) + 1 := by omega
      rw [hfuel, reverse_loop_step]
      simp only [reverse_run] at hs
      cases hb : reverse_body h prev c with
      | none => simp [hb] at hs
      | some s1 =>
        simp only [hb] at hs
        simp only []
        rw [ih f s1.1 s1.2.1 s1.2.2 (i + 1) s hs]
        congr 1
        omega

theorem drop_take_split {α : Type} :
    ∀ (l : List α) (k : Nat), k < l.length →
      ∃ x, l.drop k = x :: l.drop (k + 1) ∧ l.take (k + 1) = l.take k ++ [x] := by
  intro l
  induction l with
  | nil => intro k hk; simp at hk
  | cons y l ih =>
    intro k hk
    cases k with
    | zero => exact ⟨y, by simp, by simp⟩
    | succ k =>
      have hk' : k < l.length := by simpa using hk
      obtain ⟨x, hd, ht⟩ := ih k hk'
      exact ⟨x, by simpa using hd, by simp [ht]⟩

theorem loopInv_step (h0 : Heap) (head : Ptr) (l : List (Nat × Int)) (hl : IsList h0 head l)
    (k : Nat) (h : Heap) (prev cur : Ptr) (hinv : LoopInv h0 l k h prev cur)
    (hk : k < l.length) :
    ∃ c s, cur = some c ∧ reverse_body h prev c = some s ∧
      LoopInv h0 l (k + 1) s.1 s.2.1 s.2.2 := by
  obtain ⟨_, hprev, hcur, hun⟩ := hinv
  obtain ⟨x, hdrop, htake⟩ := drop_take_split l k hk
  rw [hdrop] at hcur hun
  have hnot := isList_head_not_mem h cur x _ hcur
  obtain ⟨hp, nx, hx, ht⟩ := hcur
  have hnd : ((l.take k ++ x :: l.drop (k + 1)).map Prod.fst).Nodup := by
    rw [← hdrop, List.take_append_drop]
    exact isList_nodup h0 l head hl
  have hpre : x.1 ∉ (l.take k).reverse.map Prod.fst := by
    rw [List.map_append, List.map_cons, List.nodup_append] at hnd
    intro hmem
    rw [List.map_reverse, List.mem_reverse] at hmem
    exact hnd.2.2 hmem (List.mem_cons_self _ _)
  refine ⟨x.1, (store h x.1 ⟨x.2, prev⟩, some x.1, nx), hp, ?_, ?_, ?_, ?_, ?_⟩
  · simp [reverse_body, hx]
  · exact hk
  · show IsList (store h x.1 ⟨x.2, prev⟩) (some x.1) (l.take (k + 1)).reverse
    rw [htake, List.reverse_append, List.reverse_singleton, List.singleton_append]
    exact ⟨rfl, prev, store_same h x.1 _, isList_store h x.1 _ _ prev hprev hpre⟩
  · exact isList_store h x.1 _ _ nx ht hnot
  · intro a ha
    have hne : a ≠ x.1 := fun e => hnot (e ▸ ha)
    show store h x.1 ⟨x.2, prev⟩ a = h0 a
    rw [store_other h x.1 a _ hne]
    exact hun a (by rw [List.map_cons]; exact List.mem_cons_of_mem _ ha)

theorem loopInv_run (h0 : Heap) (head : Ptr) (l : List (Nat × Int)) (hl : IsList h0 head l) :
    ∀ (k j : Nat) (h : Heap) (prev cur : Ptr), LoopInv h0 l j h prev cur →
      j + k ≤ l.length →
      ∃ s, reverse_run k h prev cur = some s ∧ LoopInv h0 l (j + k) s.1 s.2.1 s.2.2 := by
  intro k
  induction k with
  | zero =>
    intro j h prev cur hinv _
    exact ⟨(h, prev, cur), rfl, hinv⟩
  | succ k ih =>
    intro j h prev cur hinv hjk
    obtain ⟨c, s1, hc, hb, hinv1⟩ := loopInv_step h0 head l hl j h prev cur hinv (by omega)
    obtain ⟨s, hs, hinv2⟩ := ih (j + 1) s1.1 s1.2.1 s1.2.2 hinv1 (by omega)
    refine ⟨s, ?_, ?_⟩
    · subst hc
      simp only [reverse_run, hb]
      exact hs
    · have e : j + (k + 1) = j + 1 + k := by omega
      rw [e]
      exact hinv2

theorem loopInv_init (h0 : Heap) (head : Ptr) (l : List (Nat × Int)) (hl : IsList h0 head l) :
    LoopInv h0 l 0 h0 none head := by
  refine ⟨Nat.zero_le _, ?_, ?_, fun _ _ => rfl⟩
  · simp [IsList]
  · simpa using hl

/-- C14: the loop invariant of `reverse_list` on a finite acyclic list `l`.
It holds when the loop is entered with `prev = NULL` and `current = head`; an
execution of the loop body in a state that satisfies it after `k < n` nodes
leaves a state that satisfies it after `k + 1` nodes; so for every `k ≤ n` the
loop reaches, after `k` executions of its body, a state that satisfies it. -/
theorem reverse_loop_invariant (h0 : Heap) (head : Ptr) (l : List (Nat × Int))
    (hl : IsList h0 head l) :
    LoopInv h0 l 0 h0 none head ∧
    (∀ (k : Nat) (h : Heap) (prev cur : Ptr), LoopInv h0 l k h prev cur → k < l.length →
      ∃ c s, cur = some c ∧ reverse_body h prev c = some s ∧
        LoopInv h0 l (k + 1) s.1 s.2.1 s.2.2) ∧
    (∀ k, k ≤ l.length →
      ∃ s, reverse_run k h0 none head = some s ∧ LoopInv h0 l k s.1 s.2.1 s.2.2 ∧
        ∀ f i, reverse_loop (k + f) h0 none head i = reverse_loop f s.1 s.2.1 s.2.2 (i + k)) := by
  have hinit := loopInv_init h0 head l hl
  refine ⟨hinit, fun k h prev cur hinv hk => loopInv_step h0 head l hl k h prev cur hinv hk, ?_⟩
  intro k hk
  obtain ⟨s, hs, hinv⟩ := loopInv_run h0 head l hl k 0 h0 none head hinit (by omega)
  refine ⟨s, hs, ?_, fun f i => reverse_loop_run k f h0 none head i s hs⟩
  simpa using hinv

/-- C14 on the three-node list at addresses 0, 1, 2, after two nodes. -/
theorem reverse_loop_invariant_witness :
    IsList (build 0 [1, 2, 3]) (some 0) [(0, 1), (1, 2), (2, 3)] ∧
    ∃ s, reverse_run 2 (build 0 [1, 2, 3]) none (some 0) = some s ∧
      LoopInv (build 0 [1, 2, 3]) [(0, 1), (1, 2), (2, 3)] 2 s.1 s.2.1 s.2.2 ∧
      ∀ f i, reverse_loop (2 + f) (build 0 [1, 2, 3]) none (some 0) i
        = reverse_loop f s.1 s.2.1 s.2.2 (i + 2) :=
  ⟨by decide, (reverse_loop_invariant (build 0 [1, 2, 3]) (some 0) [(0, 1), (1, 2), (2, 3)]
    (by decide)).2.2 2 (by decide)⟩

/-! ## The guard of `reverse_list` -/

theorem spec_reverse_loop_eq :
    ∀ (l : List (Nat × Int)) (fuel : Nat) (h : Heap) (prev cur : Ptr),
      IsList h cur l → l.length ≤ fuel →
      spec_reverse_loop fuel h prev cur = .ok (relink h prev l, endPtr prev l) := by
  intro l
  induction l with
  | nil =>
    intro fuel h prev cur hl _
    simp only [IsList] at hl
    subst hl
    cases fuel <;> rfl
  | cons x l ih =>
    intro fuel h prev cur hl hf
    have hnot := isList_head_not_mem h cur x l hl
    obtain ⟨hp, nx, hx, ht⟩ := hl
    subst hp
    cases fuel with
    | zero => simp at hf
    | succ fuel =>
      have hf' : l.length ≤ fuel := by simpa using hf
      have ht' := isList_store h x.1 ⟨x.2, prev⟩ l nx ht hnot
      have step : spec_reverse_loop (fuel + 1) h prev (some x.1)
          = spec_reverse_loop fuel (store h x.1 ⟨x.2, prev⟩) (some x.1) nx := by
        simp only [spec_reverse_loop, hx]
      rw [step, ih fuel _ (some x.1) nx ht' hf']
      rfl

/-- C15: the guard of `reverse_list` does not change the result: on a finite
acyclic list `reverse_list` and the algorithm of the specification, which has
no guard, both return, with the same head and the same final heap. -/
theorem reverse_list_guard (fuel : Nat) (h : Heap) (head : Ptr) (l : List (Nat × Int))
    (hl : IsList h head l) (hf : l.length ≤ fuel) :
    ∃ r s, reverse_list fuel h head = .ok r ∧ spec_reverse fuel h head = .ok s ∧
      r.ret = s.2 ∧ r.heap = s.1 :=
  ⟨_, _, reverse_list_eq fuel h head l hl hf, spec_reverse_loop_eq l fuel h none head hl hf,
    rfl, rfl⟩

/-- C15 on the single-node list of the test program, where the guard fires. -/
theorem reverse_list_guard_witness :
    IsList (build 0 [1]) (some 0) [(0, 1)] ∧
    ∃ r s, reverse_list 1 (build 0 [1]) (some 0) = .ok r ∧
      spec_reverse 1 (build 0 [1]) (some 0) = .ok s ∧ r.ret = s.2 ∧ r.heap = s.1 :=
  ⟨by decide, reverse_list_guard 1 (build 0 [1]) (some 0) [(0, 1)] (by decide) (by decide)⟩

/-! ## Reversal as an involution on the heap -/

theorem isList_ptr (h : Heap) (p : Ptr) (l : List (Nat × Int)) (hl : IsList h p l) :
    p = l.head?.map Prod.fst := by
  cases l with
  | nil => exact hl
  | cons x l => exact hl.1

theorem isList_agree (h h1 : Heap) :
    ∀ (l : List (Nat × Int)) (p : Ptr), IsList h p l → IsList h1 p l →
      ∀ b, b ∈ l.map Prod.fst → h b = h1 b := by
  intro l
  induction l with
  | nil => intro p _ _ b hb; simp at hb
  | cons x l ih =>
    intro p hl hl1 b hb
    obtain ⟨_, nx, hx, ht⟩ := hl
    obtain ⟨_, nx1, hx1, ht1⟩ := hl1
    have e : nx1 = nx := by
      rw [isList_ptr h1 nx1 l ht1, isList_ptr h nx l ht]
    subst e
    rw [List.map_cons, List.mem_cons] at hb
    rcases hb with hb | hb
    · rw [hb, hx, hx1]
    · exact ih nx1 ht ht1 b hb

/-- C16: `reverse_list` is an involution at the pointer level: on a finite
acyclic list with head `head` in heap `h`, a second `reverse_list`, on the head
returned by the first, returns `head` itself and leaves a heap equal to `h`. -/
theorem reverse_list_involution (fuel : Nat) (h : Heap) (head : Ptr) (l : List (Nat × Int))
    (hl : IsList h head l) (hf : l.length ≤ fuel) :
    ∃ r1 r2, reverse_list fuel h head = .ok r1 ∧
      reverse_list fuel r1.heap r1.ret = .ok r2 ∧ r2.ret = head ∧ r2.heap = h := by
  have h1 := reverse_list_isList h head l hl
  have h2 := reverse_list_isList _ _ _ h1
  rw [List.reverse_reverse] at h2
  have hret : endPtr none l.reverse = head := by
    rw [isList_ptr _ _ _ h2, isList_ptr h head l hl]
  refine ⟨_, _, reverse_list_eq fuel h head l hl hf,
    reverse_list_eq fuel _ _ l.reverse h1 (by rw [List.length_reverse]; exact hf), hret, ?_⟩
  rw [hret] at h2
  funext b
  show relink (relink h none l) none l.reverse b = h b
  by_cases hb : b ∈ l.map Prod.fst
  · exact isList_agree _ h l head h2 hl b hb
  · have hb1 : b ∉ l.reverse.map Prod.fst := by
      rw [List.map_reverse, List.mem_reverse]
      exact hb
    rw [relink_outside l.reverse _ none b hb1, relink_outside l h none b hb]

/-- C16 on the three-node list of the test program. -/
theorem reverse_list_involution_witness :
    IsList (build 0 [1, 2, 3]) (some 0) [(0, 1), (1, 2), (2, 3)] ∧
    ∃ r1 r2, reverse_list 3 (build 0 [1, 2, 3]) (some 0) = .ok r1 ∧
      reverse_list 3 r1.heap r1.ret = .ok r2 ∧ r2.ret = some 0 ∧
      r2.heap = build 0 [1, 2, 3] :=
  ⟨by decide, reverse_list_involution 3 (build 0 [1, 2, 3]) (some 0)
    [(0, 1), (1, 2), (2, 3)] (by decide) (by decide)⟩

/-! ## Reversal of a chain that runs into a cycle -/

theorem isSeg_store (h : Heap) (a : Nat) (n : Node) (q : Ptr) :
    ∀ (l : List (Nat × Int)) (p : Ptr), IsSeg h p l q → a ∉ l.map Prod.fst →
      IsSeg (store h a n) p l q := by
  intro l
  induction l with
  | nil => intro p hl _; exact hl
  | cons x l ih =>
    intro p hl hnot
    obtain ⟨hp, nx, hx, ht⟩ := hl
    rw [List.map_cons, List.mem_cons, not_or] at hnot
    refine ⟨hp, nx, ?_, ih nx ht hnot.2⟩
    rw [store_other h a x.1 n (fun e => hnot.1 e.symm)]
    exact hx

theorem isSeg_ptr_ne_none (h : Heap) (p : Ptr) (l : List (Nat × Int)) (a : Nat)
    (hl : IsSeg h p l (some a)) : p ≠ none := by
  cases l with
  | nil =>
    simp only [IsSeg] at hl
    rw [hl]
    simp
  | cons x l =>
    rw [hl.1]
    simp

/-- The loop of `reverse_list` on a segment of distinct nodes: after one
execution of the body per node it continues at the end of the segment, in the
relinked heap. -/
theorem reverse_loop_seg :
    ∀ (l : List (Nat × Int)) (f : Nat) (h : Heap) (prev cur : Ptr) (i : Nat) (q : Ptr),
      IsSeg h cur l q → (l.map Prod.fst).Nodup →
      reverse_loop (l.length + f) h prev cur i
        = reverse_loop f (relink h prev l) (endPtr prev l) q (i + l.length) := by
  intro l
  induction l with
  | nil =>
    intro f h prev cur i q hl _
    simp only [IsSeg] at hl
    subst hl
    simp [relink, endPtr]
  | cons x l ih =>
    intro f h prev cur i q hl hnd
    rw [List.map_cons, List.nodup_cons] at hnd
    obtain ⟨hp, nx, hx, ht⟩ := hl
    subst hp
    have ht' := isSeg_store h x.1 ⟨x.2, prev⟩ q l nx ht hnd.1
    have hfuel : (x :: l).length + f = (l.length + f) + 1 := by
      simp only [List.length_cons]
      omega
    have step : reverse_loop ((l.length + f) + 1) h prev (some x.1) i
        = reverse_loop (l.length + f) (store h x.1 ⟨x.2, prev⟩) (some x.1) nx (i + 1) := by
      simp only [reverse_loop, hx]
    rw [hfuel, step, ih f _ (some x.1) nx (i + 1) q ht' hnd.2]
    simp only [relink, endPtr, List.length_cons]
    congr 1
    omega

theorem reverse_list_unguarded (fuel : Nat) (h : Heap) (head : Ptr) (x : Nat × Int)
    (l : List (Nat × Int)) (a : Nat) (hseg : IsSeg h head (x :: l) (some a)) :
    reverse_list fuel h head = reverse_loop fuel h none head 0 := by
  obtain ⟨hp, nx, hx, ht⟩ := hseg
  subst hp
  have hnx : nx ≠ none := isSeg_ptr_ne_none h nx l a ht
  simp only [reverse_list, hx]
  rw [if_neg hnx]

theorem endPtr_reverse_tail (c : Nat × Int) (ts : List (Nat × Int)) :
    endPtr (some c.1) ts.reverse = ((ts ++ [c]).head?).map Prod.fst := by
  rw [endPtr_eq, List.getLast?_reverse]
  cases ts <;> rfl

/-- The loop of `reverse_list` on a chain that runs into a cycle: it goes
through the tail and round the cycle, then back through the relinked tail. -/
theorem reverse_loop_rho (f : Nat) (h : Heap) (head : Ptr) (ts : List (Nat × Int))
    (c : Nat × Int) (cs : List (Nat × Int)) (hrho : IsRho h head ts c cs)
    (hf : ts.length + 1 ≤ f) :
    ∃ h1, reverse_loop ((ts ++ c :: cs).length + f) h none head 0
      = .ok ⟨h1, head, 2 * ts.length + (cs.length + 1) + 1⟩ := by
  obtain ⟨hnd, hseg⟩ := hrho
  have hphase1 := reverse_loop_seg (ts ++ c :: cs) f h none head 0 (some c.1) hseg hnd
  have hrev : IsList (relink h none (ts ++ c :: cs)) (endPtr none (ts ++ c :: cs))
      ((ts ++ c :: cs).reverse ++ []) :=
    relink_isList (ts ++ c :: cs) [] h none hnd rfl (by simp)
  have hLrev : (ts ++ c :: cs).reverse ++ [] = cs.reverse ++ (c :: ts.reverse) := by simp
  rw [hLrev] at hrev
  obtain ⟨q, hq⟩ := isList_suffix _ cs.reverse (c :: ts.reverse) _ hrev
  have hq1 : q = some c.1 := hq.1
  subst hq1
  have hphase2 := reverse_loop_eq (c :: ts.reverse) f (relink h none (ts ++ c :: cs))
    (endPtr none (ts ++ c :: cs)) (some c.1) (0 + (ts ++ c :: cs).length) hq
    (by simp only [List.length_cons, List.length_reverse]; exact hf)
  have hhead : head = ((ts ++ [c]).head?).map Prod.fst := by
    cases ts with
    | nil => exact hseg.1
    | cons t ts => exact hseg.1
  have hret : endPtr (endPtr none (ts ++ c :: cs)) (c :: ts.reverse) = head := by
    show endPtr (some c.1) ts.reverse = head
    rw [endPtr_reverse_tail, hhead]
  have hiters : 0 + (ts ++ c :: cs).length + (c :: ts.reverse).length
      = 2 * ts.length + (cs.length + 1) + 1 := by
    simp only [List.length_append, List.length_cons, List.length_reverse]
    omega
  rw [hret, hiters] at hphase2
  exact ⟨_, by rw [hphase1, hphase2]⟩

/-- C17: `reverse_list` also terminates on cyclic input. If the chain from
`head` consists of `k ≥ 0` tail nodes leading into a cycle of `m ≥ 1` nodes,
all distinct, then with enough fuel `reverse_list` returns after exactly
`2k + m + 1` executions of the body of its loop, and it returns the original
`head`. -/
theorem reverse_list_cyclic (fuel : Nat) (h : Heap) (head : Ptr) (ts : List (Nat × Int))
    (c : Nat × Int) (cs : List (Nat × Int)) (hrho : IsRho h head ts c cs)
    (hf : 2 * ts.length + (cs.length + 1) + 1 ≤ fuel) :
    ∃ r, reverse_list fuel h head = .ok r ∧ r.ret = head ∧
      r.iters = 2 * ts.length + (cs.length + 1) + 1 := by
  have hguard : reverse_list fuel h head = reverse_loop fuel h none head 0 := by
    cases ts with
    | nil => exact reverse_list_unguarded fuel h head c cs c.1 hrho.2
    | cons t ts => exact reverse_list_unguarded fuel h head t (ts ++ c :: cs) c.1 hrho.2
  have hlen : (ts ++ c :: cs).length = ts.length + (cs.length + 1) := by simp
  have hfuel : fuel = (ts ++ c :: cs).length + (fuel - (ts ++ c :: cs).length) := by omega
  obtain ⟨h1, hrun⟩ := reverse_loop_rho (fuel - (ts ++ c :: cs).length) h head ts c cs hrho
    (by omega)
  rw [← hfuel] at hrun
  exact ⟨_, by rw [hguard, hrun], rfl, rfl⟩

/-- C17 on a tail of one node leading into a cycle of two (`k = 1`, `m = 2`,
five executions of the body), and on a single node whose `next` is the node
itself (`k = 0`, `m = 1`, two executions). -/
theorem reverse_list_cyclic_witness :
    (IsRho rhoHeap (some 0) [(0, 10)] (1, 20) [(2, 30)] ∧
      ∃ r, reverse_list 5 rhoHeap (some 0) = .ok r ∧ r.ret = some 0 ∧ r.iters = 5) ∧
    (IsRho selfLoopHeap (some 0) [] (0, 7) [] ∧
      ∃ r, reverse_list 2 selfLoopHeap (some 0) = .ok r ∧ r.ret = some 0 ∧ r.iters = 2) :=
  ⟨⟨by decide, reverse_list_cyclic 5 rhoHeap (some 0) [(0, 10)] (1, 20) [(2, 30)]
      (by decide) (by decide)⟩,
   ⟨by decide, reverse_list_cyclic 2 selfLoopHeap (some 0) [] (0, 7) []
      (by decide) (by decide)⟩⟩

end LinkedList
